import Mathlib

/-!
Verification development for the detection decoding & annotation pipeline of
`app.py` (Streamlit self-driving-car demo).

The Python source is shallowly embedded:
* images (numpy `H×W×3` arrays) become a structure holding the two spatial
  dimensions plus a pixel function; `float64` channel values become exact
  rationals (all arithmetic performed by the source on these values — sums of
  integers and halving — is exact in `float64` for the value ranges involved);
* numpy basic slicing `a[lo:hi]` (step 1) becomes an explicit normalisation of
  the integer endpoints: a negative endpoint counts from the end of the axis,
  and both endpoints are clamped to `[0, n]`;
* the `uint8` cast at the end of `add_boxes` becomes truncation toward zero;
* fallible lookups (`LABEL_COLORS[label]`, which raises `KeyError` in Python)
  become `Option`-valued results.
-/

namespace SelfDriving

/-- The fixed label→RGB palette `LABEL_COLORS` of `app.py`; a label that is
not a key of the Python dict raises `KeyError`, modelled by `none`. -/
def LABEL_COLORS : String → Option (List ℚ)
  | "car" => some [255, 0, 0]
  | "pedestrian" => some [0, 255, 0]
  | "truck" => some [0, 0, 255]
  | "trafficLight" => some [255, 255, 0]
  | "biker" => some [255, 0, 255]
  | _ => none

/-- An `H×W×3` image: spatial dimensions plus channel values indexed by
`(row, column, channel)`.  Channel values are modelled as exact rationals. -/
structure Image where
  H : ℕ
  W : ℕ
  pix : ℕ → ℕ → ℕ → ℚ

/-- One row of the box DataFrame consumed by `add_boxes`: columns
`xmin, ymin, xmax, ymax` (integer pixel coordinates) and `label`. -/
structure Box where
  xmin : ℤ
  ymin : ℤ
  xmax : ℤ
  ymax : ℤ
  label : String
deriving DecidableEq

/-- Normalisation of one endpoint of a numpy basic slice over an axis of
length `n`: a negative index is shifted by `n` (then clamped below at `0`),
and a nonnegative index is clamped above at `n`. -/
def sliceNorm (n : ℕ) (i : ℤ) : ℕ :=
  if i < 0 then (i + n).toNat else min i.toNat n

/-- Membership of axis position `j` in the numpy slice `lo:hi` over an axis
of length `n`. -/
def inSlice (n : ℕ) (lo hi : ℤ) (j : ℕ) : Prop :=
  sliceNorm n lo ≤ j ∧ j < sliceNorm n hi

instance (n : ℕ) (lo hi : ℤ) (j : ℕ) : Decidable (inSlice n lo hi j) := by
  unfold inSlice; infer_instance

/-- The pixel region addressed by the numpy expression
`image[ymin:ymax, xmin:xmax, :]` of `add_boxes` on an `H×W` image. -/
def covers (H W : ℕ) (b : Box) (y x : ℕ) : Prop :=
  inSlice H b.ymin b.ymax y ∧ inSlice W b.xmin b.xmax x

instance (H W : ℕ) (b : Box) (y x : ℕ) : Decidable (covers H W b y x) := by
  unfold covers; infer_instance

/-- The two numpy statements
`image[ymin:ymax, xmin:xmax, :] += LABEL_COLORS[label]` and
`image[ymin:ymax, xmin:xmax, :] /= 2` of `add_boxes`, for one box whose
palette colour is `col`: every pixel of the (slice-normalised) rectangle is
replaced by the equal-weight average of its current value and the colour. -/
def blendBox (img : Image) (b : Box) (col : List ℚ) : Image :=
  ⟨img.H, img.W, fun y x c =>
    if covers img.H img.W b y x then (img.pix y x c + col.getD c 0) / 2
    else img.pix y x c⟩

/-- The loop of `add_boxes` over `boxes.iterrows()`: each box's palette colour
is looked up (raising—`none`—on a label absent from `LABEL_COLORS`) and
blended into the working buffer, later boxes reading the already-blended
result. -/
def annotate : Image → List Box → Option Image
  | img, [] => some img
  | img, b :: rest =>
    match LABEL_COLORS b.label with
    | none => none
    | some col => annotate (blendBox img b col) rest

/-- Truncation toward zero of a rational, as performed by numpy's
`astype(np.uint8)` / `astype("int")` C casts on the (in-range) values that
arise here. -/
def truncQ (q : ℚ) : ℤ :=
  q.num.tdiv q.den

/-- The final `image.astype(np.uint8)` of `add_boxes`: every channel value is
truncated back to an integer (all values reached here lie in `[0, 255]`). -/
def quantize (img : Image) : Image :=
  ⟨img.H, img.W, fun y x c => ((truncQ (img.pix y x c) : ℤ) : ℚ)⟩

/-- `add_boxes(image, boxes)` of `app.py`: convert to a `float64` working
copy, blend every box's rectangle with its palette colour in order, and cast
the result back to `uint8`.  A label missing from the palette raises
(`none`); the caller's image is never modified. -/
def add_boxes (img : Image) (boxes : List Box) : Option Image :=
  (annotate img boxes).map quantize

/-- An image is `uint8`-valued when every channel value is a natural number
at most `255` (the only images the Python program ever feeds to
`add_boxes`). -/
def Image.IsUint8 (img : Image) : Prop :=
  ∀ y x c : ℕ, ∃ n : ℕ, img.pix y x c = (n : ℚ) ∧ n ≤ 255

/-- Channel `c` of the palette colour of a box's label (`0` for a label
without a palette entry, a case the blending theorems exclude). -/
def colorOf (b : Box) (c : ℕ) : ℚ :=
  ((LABEL_COLORS b.label).getD []).getD c 0

/-- The specification's description of the annotator, per pixel: fold the
boxes in BoxSet order over the channel value, replacing it by the
equal-weight average `(pixel + color) / 2` whenever the box's rectangle
covers the pixel, in exact (wider-than-8-bit) arithmetic. -/
def pixBlend (H W : ℕ) (boxes : List Box) (y x c : ℕ) (v : ℚ) : ℚ :=
  boxes.foldl (fun acc b => if covers H W b y x then (acc + colorOf b c) / 2 else acc) v

/-- The rectangle of a `Box` in its literal coordinates: the claims about
pixels "outside the boxes' rectangles" quantify over this region (numpy's
negative-index wrap-around makes it differ from `covers` for negative
coordinates). -/
def InRect (b : Box) (y x : ℕ) : Prop :=
  b.ymin ≤ (y : ℤ) ∧ (y : ℤ) < b.ymax ∧ b.xmin ≤ (x : ℤ) ∧ (x : ℤ) < b.xmax

instance (b : Box) (y x : ℕ) : Decidable (InRect b y x) := by
  unfold InRect; infer_instance

/-- A `1×4` all-`100` image used by the concrete counterexamples. -/
def cImg : Image :=
  ⟨1, 4, fun _ _ _ => 100⟩

/-- A box lying entirely to the left of the image (`x ∈ [-3, -1)`), with a
palette label. -/
def cBox : Box :=
  ⟨-3, 0, -1, 1, "car"⟩

/-- A box entirely beyond the right edge of the `1×4` image `cImg`, with
nonnegative coordinates. -/
def wBox : Box :=
  ⟨10, 0, 12, 1, "car"⟩

/-- A `2×2` all-`10` image used by concrete witnesses. -/
def img2 : Image :=
  ⟨2, 2, fun _ _ _ => 10⟩

/-- A full-image box labelled `car`. -/
def b41 : Box :=
  ⟨0, 0, 2, 2, "car"⟩

/-- A one-pixel box labelled `truck`. -/
def b42 : Box :=
  ⟨0, 0, 1, 1, "truck"⟩

/-- A box whose label has no entry in `LABEL_COLORS`. -/
def wBad : Box :=
  ⟨0, 0, 1, 1, "person"⟩

/-- The image the specification's annotator contract produces: every channel
value is the per-pixel blend fold of the boxes in order, computed exactly
and truncated to an integer once at the end. -/
def blendRef (img : Image) (boxes : List Box) : Image :=
  ⟨img.H, img.W, fun y x c =>
    ((truncQ (pixBlend img.H img.W boxes y x c (img.pix y x c)) : ℤ) : ℚ)⟩

/-! ### The raw detection decoder: the per-row loop of `yolo_v3` -/

/-- The scan underlying `np.argmax`: walk the list keeping the index and
value of the running maximum, updating only on a strictly greater value (so
the first occurrence of the maximum wins). -/
def amGo : List ℚ → ℕ × ℚ → ℕ → ℕ × ℚ
  | [], b, _ => b
  | a :: rest, b, i => if b.2 < a then amGo rest (i, a) (i + 1) else amGo rest b (i + 1)

/-- `np.argmax` on a list of scores: index of the first occurrence of the
maximum (`0` on the empty list, on which numpy would raise instead;
`yolo_v3` only ever applies it to the 80 class scores of a row). -/
def argmax : List ℚ → ℕ
  | [] => 0
  | a :: rest => (amGo rest (0, a) 1).1

/-- One candidate produced by the decoding loop of `yolo_v3`: the
`boxes[i] = [x, y, int(width), int(height)]`, `confidences[i]` and
`class_IDs[i]` entries for one retained row. -/
structure Candidate where
  x : ℤ
  y : ℤ
  w : ℤ
  h : ℤ
  conf : ℚ
  classID : ℕ
deriving DecidableEq

/-- The body of the `for detection in output` loop of `yolo_v3`:
`scores = detection[5:]`, `classID = np.argmax(scores)`,
`confidence = scores[classID]`; if `confidence > confidence_threshold` the
row is kept, its box scaled by `(W, H, W, H)`, truncated to integers by
`astype("int")`, and the corner derived by `x = int(centerX - width / 2)`,
`y = int(centerY - height / 2)`. -/
def decodeRow (W H : ℕ) (t : ℚ) (det : List ℚ) : Option Candidate :=
  let scores := det.drop 5
  let classID := argmax scores
  let conf := scores.getD classID 0
  if t < conf then
    let centerX := truncQ (det.getD 0 0 * W)
    let centerY := truncQ (det.getD 1 0 * H)
    let width := truncQ (det.getD 2 0 * W)
    let height := truncQ (det.getD 3 0 * H)
    some ⟨truncQ ((centerX : ℚ) - (width : ℚ) / 2),
          truncQ ((centerY : ℚ) - (height : ℚ) / 2),
          width, height, conf, classID⟩
  else
    none

/-- The double loop `for output in layer_outputs: for detection in output:`
of `yolo_v3`, collecting the retained candidates in traversal order. -/
def decode (W H : ℕ) (t : ℚ) (layers : List (List (List ℚ))) : List Candidate :=
  layers.flatMap fun rows => rows.filterMap (decodeRow W H t)

/-- The maximum of a list of scores (`0` on the empty list, matching the
defaults used by `decodeRow` there). -/
def listMax : List ℚ → ℚ
  | [] => 0
  | a :: rest => rest.foldl max a

/-- Index of the first occurrence of `m` in a list (length of the list when
`m` does not occur). -/
def idxOfFirst (m : ℚ) : List ℚ → ℕ
  | [] => 0
  | a :: rest => if a = m then 0 else idxOfFirst m rest + 1

/-- Reference row decoder, written from the specification's words: the
confidence is the maximal class score, the class the lowest index attaining
it; the row is kept exactly when that maximum strictly exceeds the
threshold; the box is the normalized center/width/height scaled by
`(W, H, W, H)` and truncated to integers, with the corner
`x = center_x − width/2`, `y = center_y − height/2` truncated to integers. -/
def decodeRowSpec (W H : ℕ) (t : ℚ) (det : List ℚ) : Option Candidate :=
  let scores := det.drop 5
  let conf := listMax scores
  if t < conf then
    let centerX := truncQ (det.getD 0 0 * W)
    let centerY := truncQ (det.getD 1 0 * H)
    let width := truncQ (det.getD 2 0 * W)
    let height := truncQ (det.getD 3 0 * H)
    some ⟨truncQ ((centerX : ℚ) - (width : ℚ) / 2),
          truncQ ((centerY : ℚ) - (height : ℚ) / 2),
          width, height, conf, idxOfFirst conf scores⟩
  else
    none

/-- Reference decoder over all rows of all layers, written from the
specification's words. -/
def decodeSpec (W H : ℕ) (t : ℚ) (layers : List (List (List ℚ))) : List Candidate :=
  layers.flatten.filterMap (decodeRowSpec W H t)

/-! ### The suppression engine -/

/-- A candidate box in the `(x, y, w, h)` corner-plus-extent form handed to
the suppression engine. -/
structure NBox where
  x : ℤ
  y : ℤ
  w : ℤ
  h : ℤ
deriving DecidableEq

/-- Modelled from the spec: the area of the intersection of two
corner-plus-extent rectangles, used by intersection-over-union (the
suppression routine `cv2.dnn.NMSBoxes` called by `yolo_v3` is external
library code, not part of this repository). -/
def interArea (a b : NBox) : ℤ :=
  max 0 (min (a.x + a.w) (b.x + b.w) - max a.x b.x) *
    max 0 (min (a.y + a.h) (b.y + b.h) - max a.y b.y)

/-- Modelled from the spec: intersection-over-union of two rectangles, the
ratio of the overlapping area to the union area (`0` when the union area is
`0`, by the rational convention `q / 0 = 0`). -/
def iou (a b : NBox) : ℚ :=
  (interArea a b : ℚ) / ((a.w * a.h + b.w * b.h - interArea a b : ℤ) : ℚ)

/-- One entry of the suppression engine's working list: the candidate's
original position together with its box and confidence. -/
structure NItem where
  idx : ℕ
  box : NBox
  conf : ℚ
deriving DecidableEq

/-- The maximal confidence among a list of items (`0` for the empty list,
which the suppression loop never consults). -/
def maxConf : List NItem → ℚ
  | [] => 0
  | p :: rest => rest.foldl (fun a q => max a q.conf) p.conf

/-- Modelled from the spec: one round of greedy non-maximum suppression —
select the first-seen remaining item of maximal confidence, keep its index,
discard every remaining item whose intersection-over-union with it exceeds
the threshold, and repeat.  `cv2.dnn.NMSBoxes` is external library code, not
part of this repository; the fuel argument bounds the number of rounds and
is initialised to the input length, which the length-decrease of each round
never exhausts. -/
def nmsGo (thr : ℚ) : ℕ → List NItem → List ℕ
  | 0, _ => []
  | _, [] => []
  | fuel + 1, l@(_ :: _) =>
    let m := maxConf l
    match l.dropWhile (fun p => decide (p.conf ≠ m)) with
    | [] => []
    | best :: l₂ =>
      best.idx ::
        nmsGo thr fuel
          ((l.takeWhile (fun p => decide (p.conf ≠ m)) ++ l₂).filter
            (fun p => decide (iou best.box p.box ≤ thr)))

/-- Pair every candidate box/confidence with its original position. -/
def mkItems (boxes : List NBox) (confs : List ℚ) : List NItem :=
  (boxes.zip confs).enum.map fun p => ⟨p.1, p.2.1, p.2.2⟩

/-- Modelled from the spec: greedy non-maximum suppression over parallel
lists of boxes and confidences, returning the kept original indices
(`cv2.dnn.NMSBoxes` as used by `yolo_v3`; the external routine's additional
score filtering is vacuous there because every candidate already passed the
strict confidence threshold). -/
def nms (boxes : List NBox) (confs : List ℚ) (thr : ℚ) : List ℕ :=
  nmsGo thr (mkItems boxes confs).length (mkItems boxes confs)

/-- The claim's description of one greedy suppression run, as an inductive
relation: the empty state yields the empty result; otherwise the list
decomposes around a `best` item that every earlier item is strictly below in
confidence (first-seen tie-breaking) and no item exceeds, `best`'s index is
kept, and the result continues on the remaining items whose
intersection-over-union with `best` does not exceed the threshold. -/
inductive NmsRel (thr : ℚ) : List NItem → List ℕ → Prop
  | nil : NmsRel thr [] []
  | step (l₁ l₂ : List NItem) (best : NItem) (rest : List ℕ) :
      (∀ p ∈ l₁, p.conf < best.conf) →
      (∀ p ∈ l₁ ++ best :: l₂, p.conf ≤ best.conf) →
      NmsRel thr
        ((l₁ ++ l₂).filter (fun p => decide (iou best.box p.box ≤ thr))) rest →
      NmsRel thr (l₁ ++ best :: l₂) (best.idx :: rest)

/-! ### The label remapper and the final assembly loop of `yolo_v3` -/

/-- The `new_labels` table of `yolo_v3`: the 80 COCO class indices mapped
positionally to an application label, `none` standing for Python's `None`
drop sentinel. -/
def new_labels : List (Option String) :=
  [some "pedestrian", some "biker", some "car", some "biker", none,
   some "truck", none, some "truck", none, some "trafficLight",
   none, none, none, none, none, none, none, none, none, none,
   none, none, none, none, none, none, none, none, none, none,
   none, none, none, none, none, none, none, none, none, none,
   none, none, none, none, none, none, none, none, none, none,
   none, none, none, none, none, none, none, none, none, none,
   none, none, none, none, none, none, none, none, none, none,
   none, none, none, none, none, none, none, none, none, none]

/-- The final loop of `yolo_v3` over the indices kept by suppression:
`label = new_labels[class_IDs[i]]`; rows whose label is `None` are skipped
(`continue`), every other row contributes
`(x, y, x + w, y + h, label)` to the returned DataFrame. -/
def assemble (idxs : List ℕ) (boxes : List NBox) (class_IDs : List ℕ) : List Box :=
  idxs.filterMap fun i =>
    match new_labels.getD (class_IDs.getD i 0) none with
    | none => none
    | some label =>
      let b := boxes.getD i ⟨0, 0, 0, 0⟩
      some ⟨b.x, b.y, b.x + b.w, b.y + b.h, label⟩

/-! ### The frame selector -/

/-- `get_selected_frames(summary, label, min_elts, max_elts)` of `app.py`:
the summary is a table of rows `(frame, per-label counts)`; the pandas
boolean mask `np.logical_and(summary[label] >= min_elts,
summary[label] <= max_elts)` keeps, in order, the frames whose count for the
chosen label lies in the inclusive range. -/
def get_selected_frames (summary : List (String × (String → ℤ)))
    (label : String) (min_elts max_elts : ℤ) : List String :=
  (summary.filter fun row =>
    decide (min_elts ≤ row.2 label ∧ row.2 label ≤ max_elts)).map fun row => row.1

/-- Two raw detection rows that agree everywhere except possibly in the
objectness entry, index `4` of the layout
`[cx, cy, w, h, objectness, class_score_0, …]`. -/
def RowsAgreeExceptObj (r1 r2 : List ℚ) : Prop :=
  r1.length = r2.length ∧ ∀ i : ℕ, i ≠ 4 → r1.getD i 0 = r2.getD i 0

/-- Two collections of raw layer outputs whose rows agree pairwise except
possibly in their objectness entries. -/
def LayersAgreeExceptObj (L1 L2 : List (List (List ℚ))) : Prop :=
  List.Forall₂ (fun a b => List.Forall₂ RowsAgreeExceptObj a b) L1 L2

/-! ## Lemmas about the annotator -/

theorem truncQ_natCast (n : ℕ) : truncQ (n : ℚ) = n := by
  simp [truncQ]

theorem quantize_eq_self (img : Image) (h : img.IsUint8) : quantize img = img := by
  cases img with
  | mk H W pix =>
    simp only [quantize, Image.mk.injEq, true_and]
    funext y x c
    obtain ⟨n, hn, -⟩ := h y x c
    simp only at hn
    rw [hn, truncQ_natCast]
    norm_cast

theorem annotate_dims :
    ∀ (boxes : List Box) (img out : Image), annotate img boxes = some out →
      out.H = img.H ∧ out.W = img.W := by
  intro boxes
  induction boxes with
  | nil => intro img out h; cases h; exact ⟨rfl, rfl⟩
  | cons b rest ih =>
    intro img out h
    simp only [annotate] at h
    cases hcol : LABEL_COLORS b.label with
    | none => rw [hcol] at h; cases h
    | some col =>
      rw [hcol] at h
      exact ih (blendBox img b col) out h

theorem annotate_some :
    ∀ (boxes : List Box) (img : Image),
      (∀ b ∈ boxes, (LABEL_COLORS b.label).isSome) →
      annotate img boxes =
        some ⟨img.H, img.W, fun y x c => pixBlend img.H img.W boxes y x c (img.pix y x c)⟩ := by
  intro boxes
  induction boxes with
  | nil =>
    intro img _
    simp only [annotate, pixBlend, List.foldl_nil]
  | cons b rest ih =>
    intro img hpal
    have hb := hpal b (List.mem_cons_self b rest)
    cases hcol : LABEL_COLORS b.label with
    | none => rw [hcol] at hb; cases hb
    | some col =>
      simp only [annotate, hcol]
      rw [ih (blendBox img b col) fun q hq => hpal q (List.mem_cons_of_mem b hq)]
      simp only [blendBox, Option.some.injEq, Image.mk.injEq, true_and]
      funext y x c
      have hc : colorOf b c = col.getD c 0 := by
        simp [colorOf, hcol]
      simp only [pixBlend, List.foldl_cons, hc]

theorem annotate_none :
    ∀ (boxes : List Box) (img : Image),
      (∃ b ∈ boxes, LABEL_COLORS b.label = none) → annotate img boxes = none := by
  intro boxes
  induction boxes with
  | nil => intro img h; simp at h
  | cons b rest ih =>
    intro img h
    obtain ⟨q, hq, hnone⟩ := h
    rcases List.mem_cons.mp hq with rfl | hq
    · simp [annotate, hnone]
    · cases hcol : LABEL_COLORS b.label with
      | none => simp [annotate, hcol]
      | some col =>
        simp only [annotate, hcol]
        exact ih (blendBox img b col) ⟨q, hq, hnone⟩

theorem annotate_labels_of_some (boxes : List Box) (img mid : Image)
    (h : annotate img boxes = some mid) :
    ∀ b ∈ boxes, (LABEL_COLORS b.label).isSome := by
  intro b hb
  by_contra hno
  have hnone : LABEL_COLORS b.label = none := Option.not_isSome_iff_eq_none.mp hno
  rw [annotate_none boxes img ⟨b, hb, hnone⟩] at h
  cases h

theorem pixBlend_notCovered (H W : ℕ) (y x c : ℕ) :
    ∀ (boxes : List Box) (v : ℚ), (∀ b ∈ boxes, ¬ covers H W b y x) →
      pixBlend H W boxes y x c v = v := by
  intro boxes
  induction boxes with
  | nil => intro v _; rfl
  | cons b rest ih =>
    intro v h
    simp only [pixBlend, List.foldl_cons, if_neg (h b (List.mem_cons_self b rest))]
    have := ih v fun q hq => h q (List.mem_cons_of_mem b hq)
    simpa [pixBlend] using this

theorem covers_imp_InRect (H W : ℕ) (b : Box) (y x : ℕ)
    (hx0 : 0 ≤ b.xmin) (hy0 : 0 ≤ b.ymin) (hx1 : 0 ≤ b.xmax) (hy1 : 0 ≤ b.ymax)
    (h : covers H W b y x) : InRect b y x := by
  simp only [covers, inSlice, sliceNorm] at h
  rw [if_neg (not_lt.mpr hy0), if_neg (not_lt.mpr hy1), if_neg (not_lt.mpr hx0),
    if_neg (not_lt.mpr hx1)] at h
  obtain ⟨⟨hya, hyb⟩, hxa, hxb⟩ := h
  refine ⟨?_, ?_, ?_, ?_⟩ <;> omega

theorem blendBox_id (img : Image) (b : Box) (col : List ℚ)
    (h : ∀ y x : ℕ, ¬ covers img.H img.W b y x) : blendBox img b col = img := by
  cases img with
  | mk H W pix =>
    simp only [blendBox, Image.mk.injEq, true_and]
    funext y x c
    exact if_neg (h y x)

theorem add_boxes_eq_blendRef (img : Image) (boxes : List Box)
    (hpal : ∀ b ∈ boxes, (LABEL_COLORS b.label).isSome) :
    add_boxes img boxes = some (blendRef img boxes) := by
  rw [add_boxes, annotate_some boxes img hpal]
  rfl

/-- C1, counterexample: the box `cBox = (xmin, ymin, xmax, ymax) =
(-3, 0, -1, 1)` lies entirely outside the all-`100` `1×4` image `cImg`
(`xmax ≤ 0`), its label has a palette entry, yet annotating it changes the
pixel at row `0`, column `1` from `100` to `177`: numpy interprets the
negative slice endpoints as counting from the end of the axis, so the
rectangle is not clamped away. -/
theorem c1_negative_box_changes_image :
    cBox.xmax ≤ 0 ∧ cBox.xmin ≤ cBox.xmax ∧ (LABEL_COLORS cBox.label).isSome ∧
      cImg.IsUint8 ∧ add_boxes cImg [cBox] ≠ some cImg := by
  refine ⟨by decide, by decide, by decide, fun _ _ _ => ⟨100, rfl, by norm_num⟩, fun h => ?_⟩
  have h1 : (add_boxes cImg [cBox]).map (fun i => i.pix 0 1 0) = some 177 := by
    with_unfolding_all decide
  rw [h] at h1
  simp only [Option.map_some, Option.some.injEq, cImg] at h1
  norm_num at h1

/-- C1, amended: for a `uint8` image and a box with nonnegative coordinates
whose rectangle lies entirely outside the image extents (or is empty), the
slice `[ymin:ymax, xmin:xmax]` is clamped to the image and `add_boxes`
returns the input image unchanged; boxes with negative coordinates are
instead wrapped to index from the end of the axis (Python slice semantics)
and can modify pixels. -/
theorem c1_amended_outside_box_identity (img : Image) (b : Box)
    (h8 : img.IsUint8) (hpal : (LABEL_COLORS b.label).isSome)
    (hx0 : 0 ≤ b.xmin) (hy0 : 0 ≤ b.ymin) (hx1 : 0 ≤ b.xmax) (hy1 : 0 ≤ b.ymax)
    (hout : (img.W : ℤ) ≤ b.xmin ∨ (img.H : ℤ) ≤ b.ymin ∨
      b.xmax ≤ b.xmin ∨ b.ymax ≤ b.ymin) :
    add_boxes img [b] = some img := by
  obtain ⟨col, hcol⟩ := Option.isSome_iff_exists.mp hpal
  have hempty : ∀ y x : ℕ, ¬ covers img.H img.W b y x := by
    intro y x
    simp only [covers, inSlice, sliceNorm]
    rw [if_neg (not_lt.mpr hy0), if_neg (not_lt.mpr hy1), if_neg (not_lt.mpr hx0),
      if_neg (not_lt.mpr hx1)]
    omega
  rw [add_boxes]
  have : annotate img [b] = some img := by
    simp only [annotate, hcol, blendBox_id img b col hempty]
  rw [this]
  show some (quantize img) = some img
  rw [quantize_eq_self img h8]

/-- C1, witness for the amended theorem at the concrete image `cImg` and the
concrete box `wBox`, which lies beyond the right edge of the image. -/
theorem c1_amended_outside_box_identity_witness :
    cImg.IsUint8 ∧ (LABEL_COLORS wBox.label).isSome ∧ 0 ≤ wBox.xmin ∧
      (cImg.W : ℤ) ≤ wBox.xmin ∧ add_boxes cImg [wBox] = some cImg :=
  ⟨fun _ _ _ => ⟨100, rfl, by norm_num⟩, by decide, by decide, by decide,
    c1_amended_outside_box_identity cImg wBox (fun _ _ _ => ⟨100, rfl, by norm_num⟩)
      (by decide) (by decide) (by decide) (by decide) (by decide) (Or.inl (by decide))⟩

/-- C4: when every box's label has a palette entry, `add_boxes` produces the
image whose every channel value is obtained by folding the boxes in BoxSet
order over the pixel, replacing the (already-blended) value `v` by the
equal-weight average `(v + color) / 2` on each box's rectangle, all in exact
wider-than-8-bit arithmetic, truncated back to 8 bits only once at the
end. -/
theorem c4_blend_order_and_accumulator (img : Image) (boxes : List Box)
    (hpal : ∀ b ∈ boxes, (LABEL_COLORS b.label).isSome) :
    add_boxes img boxes = some (blendRef img boxes) :=
  add_boxes_eq_blendRef img boxes hpal

/-- C4, witness: two overlapping boxes on the concrete `2×2` image `img2`. -/
theorem c4_blend_order_and_accumulator_witness :
    (∀ b ∈ [b41, b42], (LABEL_COLORS b.label).isSome) ∧
      add_boxes img2 [b41, b42] = some (blendRef img2 [b41, b42]) ∧
      (blendRef img2 [b41, b42]).pix 0 0 2 = 130 :=
  ⟨by decide, c4_blend_order_and_accumulator img2 [b41, b42] (by decide),
    by with_unfolding_all decide⟩

/-- C8, counterexample: the pixel at row `0`, column `1` of the `1×4` image
`cImg` lies outside the (literal) rectangle of the box `cBox`, yet
`add_boxes` changes its value: the box's negative `x` endpoints wrap around
to address columns `1` and `2`. -/
theorem c8_wraparound_modifies_outside_pixel :
    (¬ InRect cBox 0 1) ∧
      (add_boxes cImg [cBox]).map (fun i => i.pix 0 1 0) ≠ some (cImg.pix 0 1 0) := by
  constructor
  · decide
  · intro h
    have h1 : (add_boxes cImg [cBox]).map (fun i => i.pix 0 1 0) = some 177 := by
      with_unfolding_all decide
    have h2 : some (cImg.pix 0 1 0) = some (177 : ℚ) := h ▸ h1
    have h3 : cImg.pix 0 1 0 = (177 : ℚ) := Option.some_injective ℚ h2
    have h4 : (100 : ℚ) = 177 := h3
    norm_num at h4

/-- C8, amended: `add_boxes` never mutates its input (it returns a fresh
image); for box sets whose coordinates are all nonnegative, the returned
image has the input's dimensions and agrees with the input on every pixel
outside all of the boxes' rectangles.  (For negative coordinates the
addressed region wraps around the image end and is not the literal
rectangle.) -/
theorem c8_amended_no_mutation_outside_rects (img : Image) (boxes : List Box)
    (out : Image) (h8 : img.IsUint8)
    (hnn : ∀ b ∈ boxes, 0 ≤ b.xmin ∧ 0 ≤ b.ymin ∧ 0 ≤ b.xmax ∧ 0 ≤ b.ymax)
    (hout : add_boxes img boxes = some out) :
    out.H = img.H ∧ out.W = img.W ∧
      ∀ y x c : ℕ, (∀ b ∈ boxes, ¬ InRect b y x) → out.pix y x c = img.pix y x c := by
  rw [add_boxes] at hout
  cases hmid : annotate img boxes with
  | none => rw [hmid] at hout; cases hout
  | some mid =>
    rw [hmid, Option.map_some'] at hout
    injection hout with hout
    have hpal := annotate_labels_of_some boxes img mid hmid
    rw [annotate_some boxes img hpal] at hmid
    have hmid' : mid =
        ⟨img.H, img.W, fun y x c => pixBlend img.H img.W boxes y x c (img.pix y x c)⟩ :=
      (Option.some.injEq _ _ ▸ hmid).symm
    subst hout
    subst hmid'
    refine ⟨rfl, rfl, ?_⟩
    intro y x c hfar
    have hnc : ∀ b ∈ boxes, ¬ covers img.H img.W b y x := by
      intro b hb hcov
      obtain ⟨a1, a2, a3, a4⟩ := hnn b hb
      exact hfar b hb (covers_imp_InRect img.H img.W b y x a1 a2 a3 a4 hcov)
    simp only [quantize]
    rw [pixBlend_notCovered img.H img.W y x c boxes (img.pix y x c) hnc]
    obtain ⟨n, hn, -⟩ := h8 y x c
    rw [hn, truncQ_natCast]
    norm_cast

/-- C8, witness for the amended theorem: annotating the one-pixel box `b42`
on the `2×2` image `img2` leaves the pixel at `(1, 1)`, outside the box's
rectangle, unchanged. -/
theorem c8_amended_no_mutation_outside_rects_witness :
    img2.IsUint8 ∧ add_boxes img2 [b42] = some (blendRef img2 [b42]) ∧
      (blendRef img2 [b42]).pix 1 1 0 = img2.pix 1 1 0 := by
  have h8 : img2.IsUint8 := fun _ _ _ => ⟨10, rfl, by norm_num⟩
  have hout : add_boxes img2 [b42] = some (blendRef img2 [b42]) :=
    add_boxes_eq_blendRef img2 [b42] (by decide)
  refine ⟨h8, hout, ?_⟩
  exact (c8_amended_no_mutation_outside_rects img2 [b42] (blendRef img2 [b42])
    h8 (by decide) hout).2.2 1 1 0 (by decide)

/-- C9: the annotation is atomic — `add_boxes` fails (returns nothing,
leaving the caller's image untouched) exactly when some box's label has no
palette entry, and whenever it returns an image, that image carries the
blend of all the boxes, never of a proper prefix. -/
theorem c9_atomic_blend (img : Image) (boxes : List Box) :
    (add_boxes img boxes = none ↔ ∃ b ∈ boxes, LABEL_COLORS b.label = none) ∧
      ∀ out : Image, add_boxes img boxes = some out → out = blendRef img boxes := by
  constructor
  · constructor
    · intro hnone
      by_contra hno
      push_neg at hno
      have hpal : ∀ b ∈ boxes, (LABEL_COLORS b.label).isSome := by
        intro b hb
        cases hcol : LABEL_COLORS b.label with
        | none => exact absurd hcol (hno b hb)
        | some col => rfl
      rw [add_boxes_eq_blendRef img boxes hpal] at hnone
      cases hnone
    · intro hex
      rw [add_boxes, annotate_none boxes img hex]
      rfl
  · intro out hout
    have hpal : ∀ b ∈ boxes, (LABEL_COLORS b.label).isSome := by
      rw [add_boxes] at hout
      cases hmid : annotate img boxes with
      | none => rw [hmid] at hout; cases hout
      | some mid => exact annotate_labels_of_some boxes img mid hmid
    rw [add_boxes_eq_blendRef img boxes hpal] at hout
    injection hout with h
    exact h.symm

/-- C9, witness: a box whose label `person` has no palette entry makes
`add_boxes` return nothing, and on the palette-labelled singleton `b42` the
returned image is the full blend. -/
theorem c9_atomic_blend_witness :
    add_boxes img2 [wBad] = none ∧ add_boxes img2 [b42] = some (blendRef img2 [b42]) :=
  ⟨(c9_atomic_blend img2 [wBad]).1.mpr ⟨wBad, by decide, by decide⟩,
    add_boxes_eq_blendRef img2 [b42] (by decide)⟩

/-! ## Lemmas about the decoder -/

theorem foldl_max_init_le (l : List ℚ) : ∀ a : ℚ, a ≤ l.foldl max a := by
  induction l with
  | nil => intro a; exact le_refl a
  | cons b l ih =>
    intro a
    exact le_trans (le_max_left a b) (ih (max a b))

theorem foldl_max_le_of_mem (l : List ℚ) :
    ∀ (a p : ℚ), p ∈ l → p ≤ l.foldl max a := by
  induction l with
  | nil => intro a p h; cases h
  | cons b l ih =>
    intro a p h
    rcases List.mem_cons.mp h with rfl | h
    · exact le_trans (le_max_right a p) (foldl_max_init_le l (max a p))
    · exact ih (max a b) p h

theorem foldl_max_attained (l : List ℚ) :
    ∀ a : ℚ, l.foldl max a = a ∨ l.foldl max a ∈ l := by
  induction l with
  | nil => intro a; exact Or.inl rfl
  | cons b l ih =>
    intro a
    rcases ih (max a b) with h | h
    · rcases max_choice a b with hm | hm
      · exact Or.inl (by rw [List.foldl_cons, h, hm])
      · refine Or.inr ?_
        rw [List.foldl_cons, h, hm]
        exact List.mem_cons_self b l
    · exact Or.inr (List.mem_cons_of_mem b h)

theorem amGo_snd (l : List ℚ) :
    ∀ (bi i : ℕ) (bv : ℚ), (amGo l (bi, bv) i).2 = l.foldl max bv := by
  induction l with
  | nil => intro bi i bv; rfl
  | cons a l ih =>
    intro bi i bv
    by_cases hlt : bv < a
    · simp only [amGo, if_pos hlt, List.foldl_cons, max_eq_right hlt.le]
      exact ih i (i + 1) a
    · simp only [amGo, if_neg hlt, List.foldl_cons, max_eq_left (not_lt.mp hlt)]
      exact ih bi (i + 1) bv

theorem amGo_fst (l : List ℚ) :
    ∀ (bi i : ℕ) (bv : ℚ),
      (amGo l (bi, bv) i).1 =
        if l.foldl max bv = bv then bi else i + idxOfFirst (l.foldl max bv) l := by
  induction l with
  | nil => intro bi i bv; simp [amGo]
  | cons a l ih =>
    intro bi i bv
    by_cases hlt : bv < a
    · have hM : (a :: l).foldl max bv = l.foldl max a := by
        rw [List.foldl_cons, max_eq_right hlt.le]
      have hMa : a ≤ l.foldl max a := foldl_max_init_le l a
      have hMbv : ¬ l.foldl max a = bv := by
        intro hcontra
        exact absurd (lt_of_lt_of_le hlt (hcontra ▸ hMa)) (lt_irrefl bv)
      simp only [amGo, if_pos hlt, ih i (i + 1) a, hM, if_neg hMbv, idxOfFirst]
      by_cases hMa' : l.foldl max a = a
      · rw [if_pos hMa', if_pos hMa'.symm]
        omega
      · have hane : ¬ a = l.foldl max a := fun hx => hMa' hx.symm
        rw [if_neg hMa', if_neg hane]
        omega
    · have ha : a ≤ bv := not_lt.mp hlt
      have hM : (a :: l).foldl max bv = l.foldl max bv := by
        rw [List.foldl_cons, max_eq_left ha]
      simp only [amGo, if_neg hlt, ih bi (i + 1) bv, hM]
      by_cases hMbv : l.foldl max bv = bv
      · rw [if_pos hMbv, if_pos hMbv]
      · have hbvM : bv ≤ l.foldl max bv := foldl_max_init_le l bv
        have hane : ¬ a = l.foldl max bv := by
          intro hx
          exact hMbv (le_antisymm hbvM (hx ▸ ha)).symm
        rw [if_neg hMbv, if_neg hMbv, idxOfFirst, if_neg hane]
        omega

theorem argmax_eq_idxOfFirst (l : List ℚ) : argmax l = idxOfFirst (listMax l) l := by
  cases l with
  | nil => rfl
  | cons a l =>
    have h := amGo_fst l 0 1 a
    by_cases hMa : l.foldl max a = a
    · rw [argmax, h, if_pos hMa, listMax, idxOfFirst, if_pos hMa.symm]
    · have hane : ¬ a = l.foldl max a := fun hx => hMa hx.symm
      rw [argmax, h, if_neg hMa, listMax, idxOfFirst, if_neg hane]
      omega

theorem getD_idxOfFirst (l : List ℚ) :
    ∀ m : ℚ, m ∈ l → l.getD (idxOfFirst m l) 0 = m := by
  induction l with
  | nil => intro m h; cases h
  | cons a l ih =>
    intro m h
    by_cases ha : a = m
    · rw [idxOfFirst, if_pos ha]
      exact ha
    · rcases List.mem_cons.mp h with rfl | h
      · exact absurd rfl ha
      · rw [idxOfFirst, if_neg ha]
        exact ih m h

theorem getD_argmax (l : List ℚ) : l.getD (argmax l) 0 = listMax l := by
  cases l with
  | nil => rfl
  | cons a l =>
    have hmem : listMax (a :: l) ∈ a :: l := by
      rcases foldl_max_attained l a with h | h
      · rw [listMax, h]; exact List.mem_cons_self a l
      · exact List.mem_cons_of_mem a (by rw [listMax]; exact h)
    rw [argmax_eq_idxOfFirst]
    exact getD_idxOfFirst (a :: l) (listMax (a :: l)) hmem

theorem getD_idxOfFirst_listMax (l : List ℚ) :
    l.getD (idxOfFirst (listMax l) l) 0 = listMax l := by
  rw [← argmax_eq_idxOfFirst]
  exact getD_argmax l

theorem decodeRow_eq_spec (W H : ℕ) (t : ℚ) (det : List ℚ) :
    decodeRow W H t det = decodeRowSpec W H t det := by
  simp only [decodeRow, decodeRowSpec, argmax_eq_idxOfFirst, getD_idxOfFirst_listMax]

theorem flatMap_filterMap_eq (f : List ℚ → Option Candidate) :
    ∀ layers : List (List (List ℚ)),
      (layers.flatMap fun rows => rows.filterMap f) = layers.flatten.filterMap f := by
  intro layers
  induction layers with
  | nil => rfl
  | cons rows layers ih =>
    rw [List.flatMap_cons, List.flatten_cons, List.filterMap_append, ih]

theorem decode_eq_decodeSpec (W H : ℕ) (t : ℚ) (layers : List (List (List ℚ))) :
    decode W H t layers = decodeSpec W H t layers := by
  rw [decode, decodeSpec, flatMap_filterMap_eq]
  congr 1
  funext det
  exact decodeRow_eq_spec W H t det

/-- C2: the decoding loop of `yolo_v3` produces exactly the candidates of
the reference definition — per row, the class is the first-seen argmax of
the class scores, the confidence that maximal score, the box the scaled and
truncated center/extent with corner `center − extent/2` truncated, the row
kept iff its maximal class score strictly exceeds the threshold — and when
no row qualifies the result is the empty list, not an error. -/
theorem c2_decoder_matches_reference :
    (∀ (W H : ℕ) (t : ℚ) (layers : List (List (List ℚ))),
      decode W H t layers = decodeSpec W H t layers) ∧
      ∀ (W H : ℕ) (t : ℚ) (layers : List (List (List ℚ))),
        (∀ row ∈ layers.flatten, listMax (row.drop 5) ≤ t) →
        decode W H t layers = [] := by
  refine ⟨decode_eq_decodeSpec, ?_⟩
  intro W H t layers h
  rw [decode_eq_decodeSpec, decodeSpec, List.filterMap_eq_nil_iff]
  intro row hrow
  simp only [decodeRowSpec, if_neg (not_lt.mpr (h row hrow))]

/-- C2, witness: a concrete one-row layer collection decoded at `W = H =
100`, threshold `1/2`, and another whose single row falls at the threshold
and is dropped. -/
theorem c2_decoder_matches_reference_witness :
    decode 100 100 (1/2) [[[1/2, 1/2, 1/5, 1/5, 0, 9/10, 1/10]]] =
      decodeSpec 100 100 (1/2) [[[1/2, 1/2, 1/5, 1/5, 0, 9/10, 1/10]]] ∧
      decode 100 100 (1/2) [[[1/2, 1/2, 1/5, 1/5, 0, 1/2, 1/10]]] = [] :=
  ⟨c2_decoder_matches_reference.1 100 100 (1/2) [[[1/2, 1/2, 1/5, 1/5, 0, 9/10, 1/10]]],
    c2_decoder_matches_reference.2 100 100 (1/2) [[[1/2, 1/2, 1/5, 1/5, 0, 1/2, 1/10]]]
      (by with_unfolding_all decide)⟩

theorem decodeRow_mono (W H : ℕ) (t1 t2 : ℚ) (h : t1 ≤ t2) (det : List ℚ)
    (cand : Candidate) (hd : decodeRow W H t2 det = some cand) :
    decodeRow W H t1 det = some cand := by
  simp only [decodeRow] at hd ⊢
  split at hd
  · next hc => rw [if_pos (lt_of_le_of_lt h hc)]; exact hd
  · cases hd

/-- C7: for a fixed raw output, raising the confidence threshold can only
shrink the candidate set — every candidate retained at the higher threshold
`t2` is retained at the lower threshold `t1`. -/
theorem c7_threshold_monotonic (W H : ℕ) (t1 t2 : ℚ)
    (layers : List (List (List ℚ))) (h : t1 < t2) :
    ∀ cand ∈ decode W H t2 layers, cand ∈ decode W H t1 layers := by
  intro cand hc
  rw [decode] at hc ⊢
  obtain ⟨rows, hrows, hcand⟩ := List.mem_flatMap.mp hc
  obtain ⟨det, hdet, hrow⟩ := List.mem_filterMap.mp hcand
  exact List.mem_flatMap.mpr ⟨rows, hrows, List.mem_filterMap.mpr
    ⟨det, hdet, decodeRow_mono W H t1 t2 h.le det cand hrow⟩⟩

/-- C7, witness: at thresholds `1/4 < 1/2` the candidate retained at `1/2`
is also retained at `1/4`. -/
theorem c7_threshold_monotonic_witness :
    (1/4 : ℚ) < 1/2 ∧
      (⟨40, 40, 20, 20, 9/10, 0⟩ : Candidate) ∈
        decode 100 100 (1/4) [[[1/2, 1/2, 1/5, 1/5, 0, 9/10, 1/10]]] :=
  ⟨by norm_num,
    c7_threshold_monotonic 100 100 (1/4) (1/2) [[[1/2, 1/2, 1/5, 1/5, 0, 9/10, 1/10]]]
      (by norm_num) ⟨40, 40, 20, 20, 9/10, 0⟩ (by with_unfolding_all decide)⟩

theorem drop5_eq_of_agree (r1 r2 : List ℚ) (h : RowsAgreeExceptObj r1 r2) :
    r1.drop 5 = r2.drop 5 := by
  obtain ⟨hlen, hval⟩ := h
  apply List.ext_getElem?
  intro i
  rw [List.getElem?_drop, List.getElem?_drop]
  rcases lt_or_le (5 + i) r1.length with hin | hout
  · have hin2 : 5 + i < r2.length := hlen ▸ hin
    rw [List.getElem?_eq_getElem hin, List.getElem?_eq_getElem hin2]
    have hv := hval (5 + i) (by omega)
    rw [List.getD_eq_getElem _ _ hin, List.getD_eq_getElem _ _ hin2] at hv
    exact congrArg some hv
  · rw [List.getElem?_eq_none (by omega), List.getElem?_eq_none (by omega)]

theorem decodeRow_obj_invariant (W H : ℕ) (t : ℚ) (r1 r2 : List ℚ)
    (h : RowsAgreeExceptObj r1 r2) : decodeRow W H t r1 = decodeRow W H t r2 := by
  have h5 := drop5_eq_of_agree r1 r2 h
  have h0 := h.2 0 (by decide)
  have h1 := h.2 1 (by decide)
  have h2 := h.2 2 (by decide)
  have h3 := h.2 3 (by decide)
  simp only [decodeRow, h5, h0, h1, h2, h3]

theorem filterMap_congr_forall₂ (f : List ℚ → Option Candidate)
    (rows1 rows2 : List (List ℚ)) (hf : ∀ a b, RowsAgreeExceptObj a b → f a = f b)
    (h : List.Forall₂ RowsAgreeExceptObj rows1 rows2) :
    rows1.filterMap f = rows2.filterMap f := by
  induction h with
  | nil => rfl
  | cons hab _ ih => rw [List.filterMap_cons, List.filterMap_cons, hf _ _ hab, ih]

/-- C10: the decode stage never reads the objectness entry — two raw
outputs that agree except in their rows' index-4 objectness entries decode
to the same candidate list under any threshold. -/
theorem c10_objectness_noninterference (W H : ℕ) (t : ℚ)
    (L1 L2 : List (List (List ℚ))) (h : LayersAgreeExceptObj L1 L2) :
    decode W H t L1 = decode W H t L2 := by
  rw [decode, decode]
  induction h with
  | nil => rfl
  | cons hab _ ih =>
    rw [List.flatMap_cons, List.flatMap_cons, ih,
      filterMap_congr_forall₂ (decodeRow W H t) _ _
        (fun a b hr => decodeRow_obj_invariant W H t a b hr) hab]

/-- C10, witness: two concrete one-row outputs differing only in the
objectness entry decode identically. -/
theorem c10_objectness_noninterference_witness :
    decode 100 100 (1/2) [[[1/2, 1/2, 1/5, 1/5, 0, 9/10, 1/10]]] =
      decode 100 100 (1/2) [[[1/2, 1/2, 1/5, 1/5, 1, 9/10, 1/10]]] :=
  c10_objectness_noninterference 100 100 (1/2) _ _
    (List.Forall₂.cons
      (List.Forall₂.cons
        ⟨rfl, fun i hi => by
          match i, hi with
          | 0, _ => rfl
          | 1, _ => rfl
          | 2, _ => rfl
          | 3, _ => rfl
          | 5, _ => rfl
          | 6, _ => rfl
          | (n + 7), _ => rw [List.getD_eq_default _ _ (by simp), List.getD_eq_default _ _ (by simp)]⟩
        List.Forall₂.nil)
      List.Forall₂.nil)

/-! ## Lemmas about the suppression engine -/

theorem foldlC_init_le (l : List NItem) :
    ∀ a : ℚ, a ≤ l.foldl (fun a q => max a q.conf) a := by
  induction l with
  | nil => intro a; exact le_refl a
  | cons b l ih =>
    intro a
    exact le_trans (le_max_left a b.conf) (ih (max a b.conf))

theorem foldlC_le_of_mem (l : List NItem) :
    ∀ (a : ℚ) (p : NItem), p ∈ l → p.conf ≤ l.foldl (fun a q => max a q.conf) a := by
  induction l with
  | nil => intro a p h; cases h
  | cons b l ih =>
    intro a p h
    rcases List.mem_cons.mp h with rfl | h
    · exact le_trans (le_max_right a p.conf) (foldlC_init_le l (max a p.conf))
    · exact ih (max a b.conf) p h

theorem foldlC_attained (l : List NItem) :
    ∀ a : ℚ, l.foldl (fun a q => max a q.conf) a = a ∨
      ∃ p ∈ l, l.foldl (fun a q => max a q.conf) a = p.conf := by
  induction l with
  | nil => intro a; exact Or.inl rfl
  | cons b l ih =>
    intro a
    rcases ih (max a b.conf) with h | h
    · rcases max_choice a b.conf with hm | hm
      · exact Or.inl (by rw [List.foldl_cons, h, hm])
      · refine Or.inr ⟨b, List.mem_cons_self b l, ?_⟩
        rw [List.foldl_cons, h, hm]
    · obtain ⟨p, hp, hfp⟩ := h
      exact Or.inr ⟨p, List.mem_cons_of_mem b hp, by rw [List.foldl_cons]; exact hfp⟩

theorem maxConf_ge (l : List NItem) : ∀ p ∈ l, p.conf ≤ maxConf l := by
  cases l with
  | nil => intro p h; cases h
  | cons b l =>
    intro p h
    rcases List.mem_cons.mp h with rfl | h
    · exact foldlC_init_le l p.conf
    · exact foldlC_le_of_mem l b.conf p h

theorem maxConf_mem (l : List NItem) (hne : l ≠ []) : ∃ p ∈ l, p.conf = maxConf l := by
  cases l with
  | nil => exact absurd rfl hne
  | cons b l =>
    rcases foldlC_attained l b.conf with h | h
    · exact ⟨b, List.mem_cons_self b l, h.symm⟩
    · obtain ⟨p, hp, hfp⟩ := h
      exact ⟨p, List.mem_cons_of_mem b hp, hfp.symm⟩

theorem dropWhile_head_false (P : NItem → Bool) :
    ∀ (l l₂ : List NItem) (b : NItem), l.dropWhile P = b :: l₂ → P b = false := by
  intro l
  induction l with
  | nil => intro l₂ b h; cases h
  | cons a l ih =>
    intro l₂ b h
    rw [List.dropWhile_cons] at h
    by_cases hp : P a = true
    · rw [if_pos hp] at h
      exact ih l₂ b h
    · rw [if_neg hp] at h
      injection h with h1 _
      subst h1
      exact Bool.not_eq_true _ ▸ hp

theorem nmsGo_rel (thr : ℚ) :
    ∀ (fuel : ℕ) (l : List NItem), l.length ≤ fuel → NmsRel thr l (nmsGo thr fuel l) := by
  intro fuel
  induction fuel with
  | zero =>
    intro l hl
    have : l = [] := List.eq_nil_of_length_eq_zero (Nat.le_zero.mp hl)
    subst this
    exact NmsRel.nil
  | succ fuel ih =>
    intro l hl
    cases l with
    | nil => exact NmsRel.nil
    | cons p rest =>
      have hmem : ∃ q ∈ p :: rest, q.conf = maxConf (p :: rest) :=
        maxConf_mem (p :: rest) (by simp)
      have hdw : (p :: rest).dropWhile
          (fun q => decide (q.conf ≠ maxConf (p :: rest))) ≠ [] := by
        intro hnil
        obtain ⟨q, hq, hqm⟩ := hmem
        exact (of_decide_eq_true ((List.dropWhile_eq_nil_iff.mp hnil) q hq)) hqm
      obtain ⟨best, l₂, hsplit⟩ := List.exists_cons_of_ne_nil hdw
      have hdec : (p :: rest).takeWhile (fun q => decide (q.conf ≠ maxConf (p :: rest))) ++
          best :: l₂ = p :: rest := by
        rw [← hsplit]
        exact List.takeWhile_append_dropWhile _ _
      have hbest : best.conf = maxConf (p :: rest) := by
        have := dropWhile_head_false _ _ _ _ hsplit
        have h2 : ¬ best.conf ≠ maxConf (p :: rest) := of_decide_eq_false this
        exact not_not.mp h2
      have hgo : nmsGo thr (fuel + 1) (p :: rest) =
          best.idx ::
            nmsGo thr fuel
              (((p :: rest).takeWhile (fun q => decide (q.conf ≠ maxConf (p :: rest))) ++ l₂).filter
                (fun q => decide (iou best.box q.box ≤ thr))) := by
        simp only [nmsGo, hsplit]
      have hlen : ((p :: rest).takeWhile
            (fun q => decide (q.conf ≠ maxConf (p :: rest)))).length + l₂.length ≤ fuel := by
        have := congrArg List.length hdec
        simp only [List.length_append, List.length_cons] at this
        have hl2 : (p :: rest).length ≤ fuel + 1 := hl
        simp only [List.length_cons] at hl2
        omega
      have hpre : ∀ q ∈ (p :: rest).takeWhile
          (fun q => decide (q.conf ≠ maxConf (p :: rest))), q.conf < best.conf := by
        intro q hq
        have hqP := List.mem_takeWhile_imp hq
        have hqne : q.conf ≠ maxConf (p :: rest) := of_decide_eq_true hqP
        have hqmem : q ∈ p :: rest := by
          rw [← hdec]
          exact List.mem_append_left _ hq
        have hqle : q.conf ≤ maxConf (p :: rest) := maxConf_ge (p :: rest) q hqmem
        rw [hbest]
        exact lt_of_le_of_ne hqle hqne
      have hall : ∀ q ∈ (p :: rest).takeWhile
          (fun q => decide (q.conf ≠ maxConf (p :: rest))) ++ best :: l₂,
          q.conf ≤ best.conf := by
        intro q hq
        rw [hdec] at hq
        rw [hbest]
        exact maxConf_ge (p :: rest) q hq
      have hrec : NmsRel thr
          (((p :: rest).takeWhile (fun q => decide (q.conf ≠ maxConf (p :: rest))) ++ l₂).filter
            (fun q => decide (iou best.box q.box ≤ thr)))
          (nmsGo thr fuel
            (((p :: rest).takeWhile (fun q => decide (q.conf ≠ maxConf (p :: rest))) ++ l₂).filter
              (fun q => decide (iou best.box q.box ≤ thr)))) := by
        refine ih _ ?_
        calc (((p :: rest).takeWhile (fun q => decide (q.conf ≠ maxConf (p :: rest))) ++ l₂).filter
              (fun q => decide (iou best.box q.box ≤ thr))).length
            ≤ ((p :: rest).takeWhile (fun q => decide (q.conf ≠ maxConf (p :: rest))) ++ l₂).length :=
              List.length_filter_le _ _
          _ ≤ fuel := by rw [List.length_append]; exact hlen
      have hstep := NmsRel.step
        ((p :: rest).takeWhile (fun q => decide (q.conf ≠ maxConf (p :: rest)))) l₂ best
        (nmsGo thr fuel
          (((p :: rest).takeWhile (fun q => decide (q.conf ≠ maxConf (p :: rest))) ++ l₂).filter
            (fun q => decide (iou best.box q.box ≤ thr))))
        hpre hall hrec
      rw [hdec] at hstep
      rw [hgo]
      exact hstep

/-- C3: the suppression engine's output is exactly a greedy non-maximum
suppression run: on empty input the result is empty (not an error), and in
general the kept indices satisfy the greedy relation — repeatedly keep the
first-seen remaining box of maximal confidence and discard every remaining
box whose intersection-over-union with it exceeds the overlap threshold. -/
theorem c3_nms_greedy_characterization :
    (∀ thr : ℚ, nms [] [] thr = []) ∧
      ∀ (boxes : List NBox) (confs : List ℚ) (thr : ℚ),
        NmsRel thr (mkItems boxes confs) (nms boxes confs thr) := by
  refine ⟨fun thr => rfl, ?_⟩
  intro boxes confs thr
  exact nmsGo_rel thr _ _ (le_refl _)

/-- C3, witness: the greedy relation holds of the computed result on a
concrete input — two coincident boxes of different confidence and one far
box, of which suppression keeps the first and the far one. -/
theorem c3_nms_greedy_characterization_witness :
    nms [⟨0, 0, 10, 10⟩, ⟨0, 0, 10, 10⟩, ⟨100, 100, 5, 5⟩] [9/10, 8/10, 7/10] (3/10) = [0, 2] ∧
      NmsRel (3/10)
        (mkItems [⟨0, 0, 10, 10⟩, ⟨0, 0, 10, 10⟩, ⟨100, 100, 5, 5⟩] [9/10, 8/10, 7/10])
        (nms [⟨0, 0, 10, 10⟩, ⟨0, 0, 10, 10⟩, ⟨100, 100, 5, 5⟩] [9/10, 8/10, 7/10] (3/10)) :=
  ⟨by with_unfolding_all decide,
    c3_nms_greedy_characterization.2
      [⟨0, 0, 10, 10⟩, ⟨0, 0, 10, 10⟩, ⟨100, 100, 5, 5⟩] [9/10, 8/10, 7/10] (3/10)⟩

/-! ## The label remapper and the frame selector -/

theorem filterMap_filter_of_none (f : ℕ → Option Box) (p : ℕ → Bool)
    (hfp : ∀ i, p i = false → f i = none) :
    ∀ l : List ℕ, l.filterMap f = (l.filter p).filterMap f := by
  intro l
  induction l with
  | nil => rfl
  | cons a l ih =>
    rw [List.filter_cons]
    cases hp : p a with
    | true =>
      rw [if_pos rfl, List.filterMap_cons, List.filterMap_cons, ih]
    | false =>
      rw [if_neg Bool.false_ne_true, List.filterMap_cons, hfp a hp, ih]

/-- C5: every class id in `[0, 80)` is mapped by `new_labels` either to a
label that has a palette entry in `LABEL_COLORS` or to the `None` drop
sentinel (no third outcome), and dropping the sentinel-mapped indices from
the suppression output does not change the assembled box list — a
sentinel-mapped detection contributes no row under any label. -/
theorem c5_remapper_palette_or_drop :
    new_labels.length = 80 ∧
      (∀ i : ℕ, i < 80 →
        new_labels.getD i none = none ∨
          ∃ lab, new_labels.getD i none = some lab ∧ (LABEL_COLORS lab).isSome) ∧
      ∀ (idxs : List ℕ) (boxes : List NBox) (class_IDs : List ℕ),
        assemble idxs boxes class_IDs =
          assemble
            (idxs.filter fun i => (new_labels.getD (class_IDs.getD i 0) none).isSome)
            boxes class_IDs := by
  refine ⟨by decide, by decide, ?_⟩
  intro idxs boxes class_IDs
  rw [assemble]
  rw [filterMap_filter_of_none _
    (fun i => (new_labels.getD (class_IDs.getD i 0) none).isSome) ?_ idxs]
  · rfl
  · intro i hi
    have hi2 : (new_labels.getD (class_IDs.getD i 0) none).isSome = false := hi
    cases h : new_labels.getD (class_IDs.getD i 0) none with
    | none => rfl
    | some lab =>
      rw [h] at hi2
      cases hi2

/-- C5, witness: class id `4` (aeroplane) maps to the sentinel, and on a
concrete suppression output the index whose class maps to the sentinel
contributes nothing to the assembled box list. -/
theorem c5_remapper_palette_or_drop_witness :
    (4 < 80 ∧
      (new_labels.getD 4 none = none ∨
        ∃ lab, new_labels.getD 4 none = some lab ∧ (LABEL_COLORS lab).isSome)) ∧
      assemble [0, 1] [⟨0, 0, 1, 1⟩, ⟨2, 2, 1, 1⟩] [4, 2] =
        assemble
          ([0, 1].filter fun i => (new_labels.getD ([4, 2].getD i 0) none).isSome)
          [⟨0, 0, 1, 1⟩, ⟨2, 2, 1, 1⟩] [4, 2] :=
  ⟨⟨by decide, c5_remapper_palette_or_drop.2.1 4 (by decide)⟩,
    c5_remapper_palette_or_drop.2.2 [0, 1] [⟨0, 0, 1, 1⟩, ⟨2, 2, 1, 1⟩] [4, 2]⟩

/-- C6: the frame selector returns exactly the frames whose count for the
chosen label lies in the inclusive range `[min_elts, max_elts]`, in the
summary's order (its result is a sublist of the summary's frame column);
a frame with count `10` for the chosen label is included at range `[0, 25]`
and excluded once `min_elts` is raised to `11`. -/
theorem c6_frame_selector_inclusive_range :
    (∀ (summary : List (String × (String → ℤ))) (label : String) (a b : ℤ) (f : String),
      f ∈ get_selected_frames summary label a b ↔
        ∃ row ∈ summary, row.1 = f ∧ a ≤ row.2 label ∧ row.2 label ≤ b) ∧
      (∀ (summary : List (String × (String → ℤ))) (label : String) (a b : ℤ),
        List.Sublist (get_selected_frames summary label a b)
          (summary.map fun row => row.1)) ∧
      get_selected_frames [("F", fun l => if l = "car" then 10 else 0)] "car" 0 25 = ["F"] ∧
      get_selected_frames [("F", fun l => if l = "car" then 10 else 0)] "car" 11 25 = [] := by
  refine ⟨?_, ?_, by with_unfolding_all decide, by with_unfolding_all decide⟩
  · intro summary label a b f
    simp only [get_selected_frames, List.mem_map, List.mem_filter, decide_eq_true_eq]
    constructor
    · rintro ⟨row, ⟨hrow, hcond⟩, rfl⟩
      exact ⟨row, hrow, rfl, hcond.1, hcond.2⟩
    · rintro ⟨row, hrow, hf, h1, h2⟩
      exact ⟨row, ⟨hrow, h1, h2⟩, hf⟩
  · intro summary label a b
    exact List.Sublist.map _ (List.filter_sublist _)

/-- C6, witness: the frame `F` with count `10` for label `car` is a member
of the selection at range `[0, 25]`. -/
theorem c6_frame_selector_inclusive_range_witness :
    "F" ∈ get_selected_frames [("F", fun l => if l = "car" then 10 else 0)] "car" 0 25 :=
  (c6_frame_selector_inclusive_range.1
      [("F", fun l => if l = "car" then 10 else 0)] "car" 0 25 "F").mpr
    ⟨("F", fun l => if l = "car" then 10 else 0), List.mem_singleton.mpr rfl, rfl,
      by norm_num, by norm_num⟩

end SelfDriving
